import Mathlib

/-!
Verification of the fast global-bounds propagation subsystem
(`getFastGlobalBounds` / `_getGlobalBoundsRecursive`).

The recursive algorithm itself is translated line by line from the source
file.  Its leaf collaborators (the `Bounds` accumulator, the affine
`Matrix` type and the scratch-bounds pool) live in files that are not part
of the sources at hand; those are modelled from the specification, which
describes each of their operations precisely.

Two embeddings are given:

* a value-level one (`_getGlobalBoundsRecursive`, `getFastGlobalBounds`)
  where in-place mutation of a bounds accumulator becomes rebinding, used
  for the functional claims; and
* an instrumented one (`visitI`, `getFastGlobalBoundsI`) where matrices
  live in an explicit store (so that the module-level `tempMatrix` and the
  scene graph's transform objects have identities) and pool borrows and
  returns are recorded in an event trace, used for the pool-discipline and
  non-mutation claims.
-/

namespace Pixi

/-- Modelled from the spec: the 2D affine transform collaborator
(`Matrix`; its source file is not among the given sources).  Maps
`(x, y)` to `(a*x + c*y + tx, b*x + d*y + ty)`. -/
structure Matrix where
  a : ℚ
  b : ℚ
  c : ℚ
  d : ℚ
  tx : ℚ
  ty : ℚ
deriving Repr, DecidableEq

/-- Application of an affine matrix to a point. -/
def Matrix.apply (m : Matrix) (x y : ℚ) : ℚ × ℚ :=
  (m.a * x + m.c * y + m.tx, m.b * x + m.d * y + m.ty)

def Matrix.identity : Matrix := ⟨1, 0, 0, 1, 0, 0⟩

/-- An axis-aligned translation matrix. -/
def Matrix.translation (tx ty : ℚ) : Matrix := ⟨1, 0, 0, 1, tx, ty⟩

/-- Modelled from the spec: the `invert` operation on transforms
("an invertible copy/invert operation available on transforms"):
the standard affine inverse. -/
def Matrix.invert (m : Matrix) : Matrix :=
  let n := m.a * m.d - m.b * m.c
  ⟨m.d / n, -m.b / n, -m.c / n, m.a / n,
    (m.c * m.ty - m.d * m.tx) / n, -(m.a * m.ty - m.b * m.tx) / n⟩

/-- Computable minimum on the scalars (kept kernel-reducible). -/
def qmin (x y : ℚ) : ℚ := if x ≤ y then x else y

/-- Computable maximum on the scalars (kept kernel-reducible). -/
def qmax (x y : ℚ) : ℚ := if x ≤ y then y else x

/-- A concrete axis-aligned rectangle given by its extents. -/
structure Rect where
  minX : ℚ
  minY : ℚ
  maxX : ℚ
  maxY : ℚ
deriving Repr, DecidableEq

/-- Componentwise min/max union of two rectangles. -/
def Rect.union (r s : Rect) : Rect :=
  ⟨qmin r.minX s.minX, qmin r.minY s.minY, qmax r.maxX s.maxX, qmax r.maxY s.maxY⟩

/-- The AABB of the four corners of a frame transformed by an affine map
(the spec: "the four frame corners are transformed first and the union
uses the transformed extents"). -/
def transformRect (m : Matrix) (x0 y0 x1 y1 : ℚ) : Rect :=
  let p1 := m.apply x0 y0
  let p2 := m.apply x1 y0
  let p3 := m.apply x0 y1
  let p4 := m.apply x1 y1
  ⟨qmin (qmin p1.1 p2.1) (qmin p3.1 p4.1),
    qmin (qmin p1.2 p2.2) (qmin p3.2 p4.2),
    qmax (qmax p1.1 p2.1) (qmax p3.1 p4.1),
    qmax (qmax p1.2 p2.2) (qmax p3.2 p4.2)⟩

/-- Modelled from the spec: the `Bounds` accumulator state.  `none` is the
invalid/empty state ("an equivalent sentinel" for `minX > maxX`); `some r`
is a valid accumulated box. -/
abbrev Bounds := Option Rect

/-- Modelled from the spec: `clear()` — resets to the invalid/empty state. -/
def Bounds.clear (_ : Bounds) : Bounds := none

/-- Modelled from the spec: `set(minX, minY, maxX, maxY)` — unconditionally
overwrites with a concrete valid rectangle. -/
def Bounds.set (_ : Bounds) (x0 y0 x1 y1 : ℚ) : Bounds := some ⟨x0, y0, x1, y1⟩

/-- The frame contributed to a union: the raw frame, or the AABB of its
four transformed corners when a transform is supplied. -/
def frameRect (x0 y0 x1 y1 : ℚ) : Option Matrix → Rect
  | none => ⟨x0, y0, x1, y1⟩
  | some m => transformRect m x0 y0 x1 y1

/-- Modelled from the spec: `addFrame` — unions the given (optionally
transformed) frame; a first union on an invalid accumulator defines the
box, a later one takes the componentwise min/max. -/
def Bounds.addFrame (b : Bounds) (x0 y0 x1 y1 : ℚ) (m : Option Matrix) : Bounds :=
  match b with
  | none => some (frameRect x0 y0 x1 y1 m)
  | some r => some (r.union (frameRect x0 y0 x1 y1 m))

/-- Modelled from the spec: `addRect` — as `addFrame`, sourced from a
rectangle value. -/
def Bounds.addRect (b : Bounds) (r : Rect) (m : Option Matrix) : Bounds :=
  Bounds.addFrame b r.minX r.minY r.maxX r.maxY m

/-- Modelled from the spec: `addBounds` — unions another accumulator's
region, optionally transformed; an invalid `other` is a no-op. -/
def Bounds.addBounds (b : Bounds) (other : Bounds) (m : Option Matrix) : Bounds :=
  match other with
  | none => b
  | some r => Bounds.addRect b r m

/-- Modelled from the spec: `applyMatrix` — replaces the box with the AABB
of its own four transformed corners; a no-op when invalid. -/
def Bounds.applyMatrix (b : Bounds) (m : Matrix) : Bounds :=
  match b with
  | none => none
  | some r => some (transformRect m r.minX r.minY r.maxX r.maxY)

/-- Modelled from the spec: `isValid`. -/
def Bounds.isValid (b : Bounds) : Bool := b.isSome

/-- An effect collaborator: it may or may not expose the bounds-mutating
capability (`addBounds`).  The capability itself is an opaque in-place
update of a bounds accumulator, modelled as a function on the state. -/
structure Effect where
  addBounds : Option (Bounds → Bounds)

/-- A scene-graph node, exposing exactly the fields the bounds engine
reads: the packed visibility flag, measurability, the optional bounds-area
override, the optional view (as its local-space bounds rectangle), the
effects list, the render-group-root flag, the local-to-render-group
transform (`rgTransform`), the full world transform, the render group's
world transform (`renderGroup.worldTransform`), and the ordered children. -/
inductive Container where
  | mk (localVisibleRenderable : Nat) (measurable : Bool)
      (boundsArea : Option Rect) (view : Option Rect)
      (effects : List Effect) (isRenderGroupRoot : Bool)
      (rgTransform : Matrix) (worldTransform : Matrix)
      (renderGroupWorldTransform : Matrix)
      (children : List Container)

def Container.localVisibleRenderable : Container → Nat
  | .mk v _ _ _ _ _ _ _ _ _ => v

def Container.measurable : Container → Bool
  | .mk _ v _ _ _ _ _ _ _ _ => v

def Container.boundsArea : Container → Option Rect
  | .mk _ _ v _ _ _ _ _ _ _ => v

def Container.view : Container → Option Rect
  | .mk _ _ _ v _ _ _ _ _ _ => v

def Container.effects : Container → List Effect
  | .mk _ _ _ _ v _ _ _ _ _ => v

def Container.isRenderGroupRoot : Container → Bool
  | .mk _ _ _ _ _ v _ _ _ _ => v

def Container.rgTransform : Container → Matrix
  | .mk _ _ _ _ _ _ v _ _ _ => v

def Container.worldTransform : Container → Matrix
  | .mk _ _ _ _ _ _ _ v _ _ => v

def Container.renderGroupWorldTransform : Container → Matrix
  | .mk _ _ _ _ _ _ _ _ v _ => v

def Container.children : Container → List Container
  | .mk _ _ _ _ _ _ _ _ _ v => v

/-- The view contribution: `localBounds.addFrame(viewBounds…, rgTransform)`
when the node has a view, nothing otherwise. -/
def addView (view : Option Rect) (rgT : Matrix) (acc : Bounds) : Bounds :=
  match view with
  | some vb => Bounds.addFrame acc vb.minX vb.minY vb.maxX vb.maxY (some rgT)
  | none => acc

/-- The effects loop: for each effect exposing `addBounds`, first (once,
lazily) convert the accumulator into render-group world space, then invoke
the effect; effects without the capability are skipped.  Returns the new
accumulator and the `advanced` flag. -/
def runEffects (effects : List Effect) (rgw : Matrix) (lb : Bounds) (advanced : Bool) :
    Bounds × Bool :=
  match effects with
  | [] => (lb, advanced)
  | e :: rest =>
    match e.addBounds with
    | none => runEffects rest rgw lb advanced
    | some f =>
      let lb1 := if advanced then lb else Bounds.applyMatrix lb rgw
      runEffects rest rgw (f lb1) true

/-- The `manageEffects` block at the end of the recursive visit: run the
effects loop; if it advanced, convert back by the inverse of the render
group's world transform and merge into the caller's accumulator under the
node's local-to-render-group transform; then unconditionally merge the
(possibly converted) local accumulator once more with no transform. -/
def effectsBlock (effects : List Effect) (rgw rgT : Matrix) (bounds localBounds : Bounds) :
    Bounds :=
  let r := runEffects effects rgw localBounds false
  let advanced := r.2
  let localBounds := r.1
  let localBounds :=
    if advanced then Bounds.applyMatrix localBounds (Matrix.invert rgw) else localBounds
  let bounds :=
    if advanced then Bounds.addBounds bounds localBounds (some rgT) else bounds
  Bounds.addBounds bounds localBounds none

/-- The epilogue of a visit that borrowed a scratch accumulator:
`if (manageEffects) {…} else if (target.isRenderGroupRoot) {…}`. -/
def finishNode (effects : List Effect) (rgRoot : Bool) (rgT rgw : Matrix)
    (bounds localBounds : Bounds) : Bounds :=
  if effects.length != 0 then effectsBlock effects rgw rgT bounds localBounds
  else if rgRoot then Bounds.addBounds bounds localBounds (some rgT)
  else bounds

mutual

/-- Line-by-line translation of `_getGlobalBoundsRecursive`.  The source
lets `localBounds` alias `bounds` unless the node roots a render group or
has effects, in which case a cleared scratch accumulator is used; the two
cases are the two branches below with the alias resolved. -/
def _getGlobalBoundsRecursive : Container → Bounds → Bounds
  | .mk lvr meas ba view effects rgRoot rgT wT rgw children, bounds =>
    if lvr != 3 || !meas then bounds
    else
      let manageEffects := effects.length != 0
      if rgRoot || manageEffects then
        -- localBounds = getBounds().clear()
        match ba with
        | some area =>
          let bounds := Bounds.addRect bounds area (some wT)
          finishNode effects rgRoot rgT rgw bounds none
        | none =>
          let localBounds := addView view rgT none
          let localBounds := addChildrenBounds children localBounds
          finishNode effects rgRoot rgT rgw bounds localBounds
      else
        -- localBounds aliases bounds; both epilogue guards are false here
        match ba with
        | some area => Bounds.addRect bounds area (some wT)
        | none =>
          let bounds := addView view rgT bounds
          addChildrenBounds children bounds

/-- The `for` loop over `target.children`, threading the accumulator. -/
def addChildrenBounds : List Container → Bounds → Bounds
  | [], b => b
  | c :: cs, b => addChildrenBounds cs (_getGlobalBoundsRecursive c b)

end

/-- Translation of `getFastGlobalBounds`: clear the output, recurse, apply
the target's render-group world transform unless the target roots a render
group, and coerce an invalid result to `(0,0,0,0)`. -/
def getFastGlobalBounds (target : Container) (bounds : Bounds) : Bounds :=
  let bounds := Bounds.clear bounds
  let bounds := _getGlobalBoundsRecursive target bounds
  let bounds :=
    if !target.isRenderGroupRoot then
      Bounds.applyMatrix bounds target.renderGroupWorldTransform
    else bounds
  if !(Bounds.isValid bounds) then Bounds.set bounds 0 0 0 0 else bounds

/-! ### Spec-side definitions used to state the claims -/

/-- The final coercion of the public operation: an invalid accumulator is
forced to the degenerate rectangle `(0,0,0,0)`. -/
def coerceB (b : Bounds) : Bounds :=
  if !(Bounds.isValid b) then Bounds.set b 0 0 0 0 else b

/-- A well-formed rectangle: non-negative extents on both axes. -/
def Rect.wf (r : Rect) : Bool :=
  decide (r.minX ≤ r.maxX) && decide (r.minY ≤ r.maxY)

/-- `s` contains `r` (as point sets of axis-aligned boxes). -/
def Rect.containsR (s r : Rect) : Bool :=
  decide (s.minX ≤ r.minX) && decide (s.minY ≤ r.minY) &&
    decide (r.maxX ≤ s.maxX) && decide (r.maxY ≤ s.maxY)

/-- `big` contains `small`: an invalid `small` is contained in anything. -/
def boundsContains (big small : Bounds) : Bool :=
  match small with
  | none => true
  | some r =>
    match big with
    | none => false
    | some s => Rect.containsR s r

/-- A well-formed accumulator: invalid, or holding a well-formed box. -/
def wfB : Bounds → Bool
  | none => true
  | some r => r.wf

/-- An axis-aligned translation: identity linear part. -/
def Matrix.isTranslation (m : Matrix) : Bool :=
  decide (m.a = 1) && decide (m.b = 0) && decide (m.c = 0) && decide (m.d = 1)

/-- Exact image of a rectangle under a translation. -/
def shiftRect (m : Matrix) (r : Rect) : Rect :=
  ⟨r.minX + m.tx, r.minY + m.ty, r.maxX + m.tx, r.maxY + m.ty⟩

/-- A "plain" node for the exactness claim: visible, measurable, no
effects, not a render-group root, no bounds-area override, its
local-to-render-group transform an axis-aligned translation, and its view
(if any) well-formed. -/
def plainNode (t : Container) : Bool :=
  t.localVisibleRenderable == 3 && t.measurable && t.effects.isEmpty &&
    !t.isRenderGroupRoot && t.boundsArea.isNone && t.rgTransform.isTranslation &&
    (match t.view with
     | none => true
     | some v => v.wf)

mutual

/-- Every node of the subtree is plain. -/
def plainTree : Container → Bool
  | .mk lvr meas ba view effects rgRoot rgT wT rgw children =>
    plainNode (.mk lvr meas ba view effects rgRoot rgT wT rgw children) &&
      plainForest children

def plainForest : List Container → Bool
  | [] => true
  | c :: cs => plainTree c && plainForest cs

end

mutual

/-- The view rectangles of the subtree, each expressed in render-group
space by its node's local-to-render-group translation, in depth-first
order (node's own view first, then the children in order). -/
def collectRects : Container → List Rect
  | .mk _ _ _ view _ _ rgT _ _ children =>
    (match view with
     | some v => [shiftRect rgT v]
     | none => []) ++ collectForest children

def collectForest : List Container → List Rect
  | [] => []
  | c :: cs => collectRects c ++ collectForest cs

end

/-- One union step without a transform. -/
def unionStep (a : Bounds) (r : Rect) : Bounds := Bounds.addRect a r none

/-- Union of a list of rectangles into an accumulator. -/
def unionList (acc : Bounds) (rs : List Rect) : Bounds := rs.foldl unionStep acc

/-- Follows the claim's words: the union of the transformed view bounds of
the target and all its descendants — each view rectangle carried to
render-group space by its node's translation and then to the requested
space by the target's render-group world translation. -/
def specTrueBounds (t : Container) : Bounds :=
  unionList none ((collectRects t).map (shiftRect t.renderGroupWorldTransform))

/-- The bounds-mutating capabilities present in an effects list, in order. -/
def capableEffects (effects : List Effect) : List (Bounds → Bounds) :=
  effects.filterMap Effect.addBounds

/-- Follows the claim's words for the effect-handling step: if no effect
exposes the capability, the scratch accumulator is merged once,
untransformed; otherwise the accumulator is converted to render-group
world space once before the first capable effect, all capable effects run
in order, the accumulator is converted back by the inverse of the render
group's world transform, merged under the node's local-to-render-group
transform, and then merged a second time untransformed. -/
def effectsSpecBlock (effects : List Effect) (rgw rgT : Matrix)
    (bounds localBounds : Bounds) : Bounds :=
  match capableEffects effects with
  | [] => Bounds.addBounds bounds localBounds none
  | f :: fs =>
    let lb := (f :: fs).foldl (fun a g => g a) (Bounds.applyMatrix localBounds rgw)
    let lb := Bounds.applyMatrix lb (Matrix.invert rgw)
    Bounds.addBounds (Bounds.addBounds bounds lb (some rgT)) lb none

/-- Replace the render-group world transform field. -/
def Container.withRGW : Container → Matrix → Container
  | .mk lvr meas ba view effects rgRoot rgT wT _ children, m =>
    .mk lvr meas ba view effects rgRoot rgT wT m children

/-- Replace the view and children fields. -/
def Container.withViewChildren : Container → Option Rect → List Container → Container
  | .mk lvr meas ba _ effects rgRoot rgT wT rgw _, v, cs =>
    .mk lvr meas ba v effects rgRoot rgT wT rgw cs

/-! ### Instrumented embedding

Matrices live in an explicit store (`HeapSt.mats`) so that the module's
private `tempMatrix` and the scene graph's transform objects have
identities, and every pool borrow/return is recorded in an event trace.
The algorithm is the same line-by-line translation; container nodes hold
store indices instead of matrix values, and the only store writes are the
two performed by `…worldTransform.copyTo(tempMatrix).invert()`. -/

/-- A pool event: a scratch accumulator was borrowed or returned. -/
inductive Ev where
  | borrow (i : Nat)
  | ret (i : Nat)
deriving Repr, DecidableEq

/-- The mutable state: the matrix store, the id of the next scratch
accumulator the pool will hand out, and the borrow/return trace. -/
structure HeapSt where
  mats : List Matrix
  nextId : Nat
  trace : List Ev
deriving Repr

/-- Read a matrix object from the store. -/
def readM (st : HeapSt) (i : Nat) : Matrix := st.mats.getD i Matrix.identity

/-- Overwrite a matrix object in the store. -/
def writeM (st : HeapSt) (i : Nat) (m : Matrix) : HeapSt :=
  { st with mats := st.mats.set i m }

/-- Modelled from the spec: the pool's `getBounds` followed by `.clear()` —
hands out a cleared scratch accumulator; instrumented with a fresh id and
a borrow event. -/
def getBounds (st : HeapSt) : Bounds × Nat × HeapSt :=
  (none, st.nextId,
    { st with nextId := st.nextId + 1, trace := st.trace ++ [Ev.borrow st.nextId] })

/-- Modelled from the spec: the pool's `returnBounds` — instrumented with a
return event for the given instance id. -/
def returnBounds (st : HeapSt) (i : Nat) : HeapSt :=
  { st with trace := st.trace ++ [Ev.ret i] }

/-- A scene-graph node whose transforms are store indices (references to
matrix objects) rather than values. -/
inductive ContainerI where
  | mk (localVisibleRenderable : Nat) (measurable : Bool)
      (boundsArea : Option Rect) (view : Option Rect)
      (effects : List Effect) (isRenderGroupRoot : Bool)
      (rgTransform : Nat) (worldTransform : Nat)
      (renderGroupWorldTransform : Nat)
      (children : List ContainerI)

def ContainerI.isRenderGroupRoot : ContainerI → Bool
  | .mk _ _ _ _ _ v _ _ _ _ => v

def ContainerI.renderGroupWorldTransform : ContainerI → Nat
  | .mk _ _ _ _ _ _ _ _ v _ => v

/-- The `manageEffects` block, instrumented: the effects loop reads the
render group's world transform (no store writes can happen during the
loop); if it advanced, the two store writes of
`worldTransform.copyTo(tempMatrix).invert()` hit only the `tempMatrix`
slot, and the converted accumulator is merged under the node's
local-to-render-group transform read afterwards. -/
def effectsBlockI (effects : List Effect) (rgwIx rgTIx tmpIx : Nat)
    (bounds localBounds : Bounds) (st : HeapSt) : Bounds × HeapSt :=
  let r := runEffects effects (readM st rgwIx) localBounds false
  let advanced := r.2
  let localBounds := r.1
  if advanced then
    let st := writeM st tmpIx (readM st rgwIx)
    let st := writeM st tmpIx (Matrix.invert (readM st tmpIx))
    let localBounds := Bounds.applyMatrix localBounds (readM st tmpIx)
    let bounds := Bounds.addBounds bounds localBounds (some (readM st rgTIx))
    (Bounds.addBounds bounds localBounds none, st)
  else
    (Bounds.addBounds bounds localBounds none, st)

/-- The epilogue of an instrumented visit that borrowed a scratch
accumulator with id `bid`: run the effects block or the render-group-root
merge, then return the scratch accumulator to the pool. -/
def finishI (effects : List Effect) (rgRoot : Bool) (rgTIx rgwIx tmpIx : Nat)
    (bounds localBounds : Bounds) (bid : Nat) (st : HeapSt) : Bounds × HeapSt :=
  if effects.length != 0 then
    let p := effectsBlockI effects rgwIx rgTIx tmpIx bounds localBounds st
    (p.1, returnBounds p.2 bid)
  else if rgRoot then
    (Bounds.addBounds bounds localBounds (some (readM st rgTIx)), returnBounds st bid)
  else (bounds, st)

/-- The instrumented view contribution. -/
def addViewI (view : Option Rect) (rgTIx : Nat) (acc : Bounds) (st : HeapSt) : Bounds :=
  match view with
  | some vb => Bounds.addFrame acc vb.minX vb.minY vb.maxX vb.maxY (some (readM st rgTIx))
  | none => acc

mutual

/-- Instrumented `_getGlobalBoundsRecursive`. -/
def visitI : ContainerI → Bounds → Nat → HeapSt → Bounds × HeapSt
  | .mk lvr meas ba view effects rgRoot rgTIx wTIx rgwIx children, bounds, tmpIx, st =>
    if lvr != 3 || !meas then (bounds, st)
    else
      let manageEffects := effects.length != 0
      if rgRoot || manageEffects then
        let g := getBounds st
        let bid := g.2.1
        let st := g.2.2
        match ba with
        | some area =>
          let bounds := Bounds.addRect bounds area (some (readM st wTIx))
          finishI effects rgRoot rgTIx rgwIx tmpIx bounds g.1 bid st
        | none =>
          let localBounds := addViewI view rgTIx g.1 st
          let p := visitListI children localBounds tmpIx st
          finishI effects rgRoot rgTIx rgwIx tmpIx bounds p.1 bid p.2
      else
        match ba with
        | some area => (Bounds.addRect bounds area (some (readM st wTIx)), st)
        | none =>
          let bounds := addViewI view rgTIx bounds st
          visitListI children bounds tmpIx st

/-- The instrumented loop over the children. -/
def visitListI : List ContainerI → Bounds → Nat → HeapSt → Bounds × HeapSt
  | [], b, _, st => (b, st)
  | c :: cs, b, tmpIx, st =>
    let p := visitI c b tmpIx st
    visitListI cs p.1 tmpIx p.2

end

/-- Instrumented `getFastGlobalBounds`: clear, recurse, apply the target's
render-group world transform (read from the final store) unless the target
roots a render group, and coerce an invalid result. -/
def getFastGlobalBoundsI (target : ContainerI) (bounds : Bounds) (tmpIx : Nat)
    (st : HeapSt) : Bounds × HeapSt :=
  let p := visitI target (Bounds.clear bounds) tmpIx st
  let bounds :=
    if !target.isRenderGroupRoot then
      Bounds.applyMatrix p.1 (readM p.2 target.renderGroupWorldTransform)
    else p.1
  (if !(Bounds.isValid bounds) then Bounds.set bounds 0 0 0 0 else bounds, p.2)

/-- The pool-event id carried by an event. -/
def evId : Ev → Nat
  | .borrow i => i
  | .ret i => i

/-- Well-nested (stack-discipline) borrow/return traces: the empty trace,
a concatenation of well-nested traces, and a borrow of `i` whose matching
return of `i` closes the segment. -/
inductive Nested : List Ev → Prop where
  | nil : Nested []
  | app : ∀ {l1 l2 : List Ev}, Nested l1 → Nested l2 → Nested (l1 ++ l2)
  | wrap : ∀ {l : List Ev} (i : Nat), Nested l → Nested (Ev.borrow i :: l ++ [Ev.ret i])

/-- Whether a recursive visit of this node borrows a scratch accumulator:
it passes the visibility/measurability early-exit and roots a render group
or has at least one effect. -/
def borrowsAt : ContainerI → Bool
  | .mk lvr meas _ _ effects rgRoot _ _ _ _ =>
    !(lvr != 3 || !meas) && (rgRoot || effects.length != 0)

/-! ### Theorems -/

theorem qmin_eq_min (x y : ℚ) : qmin x y = min x y := (min_def x y).symm

theorem qmax_eq_max (x y : ℚ) : qmax x y = max x y := by
  rw [qmax, max_def]

theorem addBounds_none (b : Bounds) (m : Option Matrix) :
    Bounds.addBounds b none m = b := rfl

theorem finishNode_nil (rgRoot : Bool) (rgT rgw : Matrix) (b lb : Bounds) :
    finishNode [] rgRoot rgT rgw b lb =
      if rgRoot then Bounds.addBounds b lb (some rgT) else b := rfl

theorem addChildrenBounds_append (l1 l2 : List Container) (b : Bounds) :
    addChildrenBounds (l1 ++ l2) b = addChildrenBounds l2 (addChildrenBounds l1 b) := by
  induction l1 generalizing b with
  | nil => rfl
  | cons c cs ih =>
    simp only [List.cons_append, addChildrenBounds]
    exact ih _

theorem runEffects_incapable (effects : List Effect) (rgw : Matrix) (lb : Bounds)
    (adv : Bool) (h : ∀ e ∈ effects, e.addBounds = none) :
    runEffects effects rgw lb adv = (lb, adv) := by
  induction effects with
  | nil => rfl
  | cons e rest ih =>
    have he := h e (List.mem_cons_self e rest)
    simp only [runEffects, he]
    exact ih (fun e' h' => h e' (List.mem_cons_of_mem e h'))

theorem runEffects_invalid (effects : List Effect) (rgw : Matrix) (adv : Bool)
    (h : ∀ e ∈ effects, ∀ f, e.addBounds = some f → f none = none) :
    (runEffects effects rgw none adv).1 = none := by
  induction effects generalizing adv with
  | nil => rfl
  | cons e rest ih =>
    match he : e.addBounds with
    | none =>
      simp only [runEffects, he]
      exact ih adv (fun e' h' => h e' (List.mem_cons_of_mem e h'))
    | some f =>
      have hf := h e (List.mem_cons_self e rest) f he
      simp only [runEffects, he]
      have : (if adv then (none : Bounds) else Bounds.applyMatrix none rgw) = none := by
        cases adv <;> rfl
      rw [this, hf]
      exact ih true (fun e' h' => h e' (List.mem_cons_of_mem e h'))

theorem runEffects_true (effects : List Effect) (rgw : Matrix) (lb : Bounds) :
    runEffects effects rgw lb true =
      ((capableEffects effects).foldl (fun a f => f a) lb, true) := by
  induction effects generalizing lb with
  | nil => rfl
  | cons e rest ih =>
    match he : e.addBounds with
    | none => simp only [runEffects, he, ih, capableEffects, List.filterMap_cons, he]
    | some f =>
      simp only [runEffects, he, if_true, ih, capableEffects, List.filterMap_cons,
        List.foldl_cons]

theorem runEffects_false (effects : List Effect) (rgw : Matrix) (lb : Bounds) :
    runEffects effects rgw lb false =
      match capableEffects effects with
      | [] => (lb, false)
      | f :: fs => (fs.foldl (fun a g => g a) (f (Bounds.applyMatrix lb rgw)), true) := by
  induction effects with
  | nil => rfl
  | cons e rest ih =>
    match he : e.addBounds with
    | none => simp only [runEffects, he, ih, capableEffects, List.filterMap_cons, he]
    | some f =>
      simp only [runEffects, he, if_neg Bool.false_ne_true, capableEffects,
        List.filterMap_cons, he, runEffects_true]

/-- C3: in the concrete scenario — root R not a render-group root with one
visible, measurable child C whose view has local bounds `(0,0,10,10)` and
whose local-to-render-group transform is the identity, and R's render-group
world transform the translation by `(5,5)` — `computeGlobalBounds(R, out)`
returns the AABB `(5,5,15,15)` (the initial content of `out` is ignored). -/
theorem c3_concrete_scenario :
    getFastGlobalBounds
      (.mk 3 true none none [] false Matrix.identity Matrix.identity
        (Matrix.translation 5 5)
        [.mk 3 true none (some ⟨0, 0, 10, 10⟩) [] false Matrix.identity
          Matrix.identity Matrix.identity []])
      (some ⟨9, 9, 9, 9⟩) = some ⟨5, 5, 15, 15⟩ := by
  norm_num [getFastGlobalBounds, _getGlobalBoundsRecursive, addChildrenBounds, addView,
    finishNode, Bounds.clear, Bounds.set, Bounds.isValid, Bounds.applyMatrix, Bounds.addFrame,
    Bounds.addRect, frameRect, transformRect, Matrix.apply, Matrix.identity, Matrix.translation,
    Rect.union, qmin, qmax, Container.isRenderGroupRoot, Container.renderGroupWorldTransform]

theorem visit_rgw_irrel (lvr : Nat) (meas : Bool) (ba view : Option Rect)
    (rgRoot : Bool) (rgT wT rgw rgw' : Matrix) (children : List Container) (b : Bounds) :
    _getGlobalBoundsRecursive (.mk lvr meas ba view [] rgRoot rgT wT rgw children) b =
      _getGlobalBoundsRecursive (.mk lvr meas ba view [] rgRoot rgT wT rgw' children) b := by
  simp only [_getGlobalBoundsRecursive, finishNode_nil]

/-- C4: at the top level, the target's render-group world transform is
applied to the accumulated bounds exactly once, at the very end, iff the
target does not itself root a render group; for a render-group-root target
the result does not depend on that transform at all (stated for targets
without effects, whose own effect handling is the only other reader of the
render group's world transform). -/
theorem c4_top_level_transform (t : Container) (b : Bounds) :
    (t.isRenderGroupRoot = false →
      getFastGlobalBounds t b =
        coerceB (Bounds.applyMatrix (_getGlobalBoundsRecursive t none)
          t.renderGroupWorldTransform)) ∧
    (t.isRenderGroupRoot = true →
      getFastGlobalBounds t b = coerceB (_getGlobalBoundsRecursive t none)) ∧
    (t.isRenderGroupRoot = true → t.effects = [] →
      ∀ m, getFastGlobalBounds (t.withRGW m) b = getFastGlobalBounds t b) := by
  refine ⟨?_, ?_, ?_⟩
  · intro h
    simp only [getFastGlobalBounds, Bounds.clear, h, Bool.not_false, if_true, coerceB]
  · intro h
    simp only [getFastGlobalBounds, Bounds.clear, h, Bool.not_true, Bool.false_eq_true,
      if_false, coerceB]
  · intro h1 h2 m
    cases t with
    | mk lvr meas ba view effects rgRoot rgT wT rgw children =>
      simp only [Container.isRenderGroupRoot] at h1
      simp only [Container.effects] at h2
      subst h1; subst h2
      simp only [getFastGlobalBounds, Container.withRGW, Container.isRenderGroupRoot,
        Bounds.clear, Bool.not_true, Bool.false_eq_true, if_false]
      rw [visit_rgw_irrel lvr meas ba view true rgT wT m rgw children]

theorem coerce_valid (bz : Bounds) :
    Bounds.isValid (if !(Bounds.isValid bz) then Bounds.set bz 0 0 0 0 else bz) = true := by
  cases bz <;> rfl

theorem effectsBlock_invalid (effects : List Effect) (rgw rgT : Matrix)
    (h : ∀ e ∈ effects, ∀ f, e.addBounds = some f → f none = none) :
    effectsBlock effects rgw rgT none none = none := by
  cases hr : (runEffects effects rgw none false).2 <;>
    simp [effectsBlock, hr, runEffects_invalid effects rgw false h, Bounds.applyMatrix,
      addBounds_none]

theorem finishNode_invalid (effects : List Effect) (rgRoot : Bool) (rgT rgw : Matrix)
    (h : ∀ e ∈ effects, ∀ f, e.addBounds = some f → f none = none) :
    finishNode effects rgRoot rgT rgw none none = none := by
  simp only [finishNode]
  by_cases hc : (effects.length != 0) = true
  · simp [hc, effectsBlock_invalid effects rgw rgT h]
  · simp [hc, addBounds_none]

/-- C7: the public operation always returns a valid rectangle; on a target
with no view, no children and no bounds-area override — whose effects, if
any, contribute nothing to an empty accumulator — the result is the
concrete degenerate rectangle `(0,0,0,0)`. -/
theorem c7_empty_default (t : Container) (b : Bounds) :
    Bounds.isValid (getFastGlobalBounds t b) = true ∧
    (t.view = none → t.children = [] → t.boundsArea = none →
      (∀ e ∈ t.effects, ∀ f, e.addBounds = some f → f none = none) →
      getFastGlobalBounds t b = some ⟨0, 0, 0, 0⟩) := by
  constructor
  · simp only [getFastGlobalBounds, Bounds.clear]
    exact coerce_valid _
  · intro h1 h2 h3 h4
    cases t with
    | mk lvr meas ba view effects rgRoot rgT wT rgw children =>
      simp only [Container.view] at h1
      simp only [Container.children] at h2
      simp only [Container.boundsArea] at h3
      simp only [Container.effects] at h4
      subst h1; subst h2; subst h3
      have hv : _getGlobalBoundsRecursive
          (.mk lvr meas none none effects rgRoot rgT wT rgw []) none = none := by
        simp only [_getGlobalBoundsRecursive]
        by_cases hskip : (lvr != 3 || !meas) = true
        · simp only [hskip, if_true]
        · simp only [hskip, if_false, addView, addChildrenBounds]
          by_cases hn : (rgRoot || effects.length != 0) = true
          · simp [hn, finishNode_invalid effects rgRoot rgT rgw h4]
          · simp [hn, finishNode_invalid effects rgRoot rgT rgw h4]
      simp only [getFastGlobalBounds, Bounds.clear, hv, Container.isRenderGroupRoot,
        Container.renderGroupWorldTransform, Bounds.applyMatrix, ite_self, Bounds.isValid,
        Option.isSome_none, Bool.not_false, if_true, Bounds.set]

/-- Witness for C4 at concrete inputs: a non-render-group-root target
(first conjunct) and a render-group-root target whose render-group world
transform is swapped out (third conjunct). -/
theorem c4_top_level_transform_witness :
    (getFastGlobalBounds
        (.mk 3 true none (some ⟨0, 0, 2, 2⟩) [] false Matrix.identity Matrix.identity
          (Matrix.translation 1 2) []) none =
      coerceB (Bounds.applyMatrix
        (_getGlobalBoundsRecursive
          (.mk 3 true none (some ⟨0, 0, 2, 2⟩) [] false Matrix.identity Matrix.identity
            (Matrix.translation 1 2) []) none)
        (Container.renderGroupWorldTransform
          (.mk 3 true none (some ⟨0, 0, 2, 2⟩) [] false Matrix.identity Matrix.identity
            (Matrix.translation 1 2) [])))) ∧
    (getFastGlobalBounds
        (Container.withRGW
          (.mk 3 true none (some ⟨0, 0, 2, 2⟩) [] true Matrix.identity Matrix.identity
            (Matrix.translation 1 2) [])
          (Matrix.translation 7 7)) none =
      getFastGlobalBounds
        (.mk 3 true none (some ⟨0, 0, 2, 2⟩) [] true Matrix.identity Matrix.identity
          (Matrix.translation 1 2) []) none) :=
  ⟨(c4_top_level_transform
      (.mk 3 true none (some ⟨0, 0, 2, 2⟩) [] false Matrix.identity Matrix.identity
        (Matrix.translation 1 2) []) none).1 rfl,
    (c4_top_level_transform
      (.mk 3 true none (some ⟨0, 0, 2, 2⟩) [] true Matrix.identity Matrix.identity
        (Matrix.translation 1 2) []) none).2.2 rfl rfl (Matrix.translation 7 7)⟩

/-- Witness for C7 at a concrete input: a bare node carrying one inert
effect still yields `(0,0,0,0)`. -/
theorem c7_empty_default_witness :
    getFastGlobalBounds
      (.mk 3 true none none [Effect.mk none] false Matrix.identity Matrix.identity
        Matrix.identity []) none = some ⟨0, 0, 0, 0⟩ :=
  (c7_empty_default _ none).2 rfl rfl rfl
    (by
      intro e he f hf
      simp only [Container.effects] at he
      rw [List.mem_singleton] at he
      subst he
      exact Option.noConfusion hf)

/-- C5: a node whose combined visibility flag is not fully set, or that is
not measurable, contributes nothing: its visit returns the accumulator
unchanged, and removing it from any parent's child list leaves both the
recursive result and the public result identical. -/
theorem c5_invisible_skip (c : Container) (b : Bounds)
    (h : c.localVisibleRenderable ≠ 3 ∨ c.measurable = false) :
    _getGlobalBoundsRecursive c b = b ∧
    (∀ (lvr : Nat) (meas : Bool) (ba view : Option Rect) (effects : List Effect)
        (rgRoot : Bool) (rgT wT rgw : Matrix) (l1 l2 : List Container) (bb : Bounds),
      _getGlobalBoundsRecursive
          (.mk lvr meas ba view effects rgRoot rgT wT rgw (l1 ++ c :: l2)) bb =
        _getGlobalBoundsRecursive
          (.mk lvr meas ba view effects rgRoot rgT wT rgw (l1 ++ l2)) bb ∧
      getFastGlobalBounds
          (.mk lvr meas ba view effects rgRoot rgT wT rgw (l1 ++ c :: l2)) bb =
        getFastGlobalBounds
          (.mk lvr meas ba view effects rgRoot rgT wT rgw (l1 ++ l2)) bb) := by
  have hs : ∀ bb : Bounds, _getGlobalBoundsRecursive c bb = bb := by
    cases c with
    | mk lvr' meas' ba' view' effects' rgRoot' rgT' wT' rgw' children' =>
      simp only [Container.localVisibleRenderable, Container.measurable] at h
      have hcond : (lvr' != 3 || !meas') = true := by
        rcases h with h | h
        · have : (lvr' != 3) = true := by simpa [bne_iff_ne] using h
          simp [this]
        · simp [h]
      intro bb
      simp only [_getGlobalBoundsRecursive, hcond, if_true]
  have hlist : ∀ (l1 l2 : List Container) (bb : Bounds),
      addChildrenBounds (l1 ++ c :: l2) bb = addChildrenBounds (l1 ++ l2) bb := by
    intro l1 l2 bb
    rw [addChildrenBounds_append, addChildrenBounds_append]
    simp only [addChildrenBounds, hs]
  refine ⟨hs b, ?_⟩
  intro lvr meas ba view effects rgRoot rgT wT rgw l1 l2 bb
  have hvisit : _getGlobalBoundsRecursive
      (.mk lvr meas ba view effects rgRoot rgT wT rgw (l1 ++ c :: l2)) bb =
      _getGlobalBoundsRecursive
        (.mk lvr meas ba view effects rgRoot rgT wT rgw (l1 ++ l2)) bb := by
    simp only [_getGlobalBoundsRecursive, hlist]
  refine ⟨hvisit, ?_⟩
  simp only [getFastGlobalBounds, Bounds.clear, Container.isRenderGroupRoot,
    Container.renderGroupWorldTransform]
  have hv : _getGlobalBoundsRecursive
      (.mk lvr meas ba view effects rgRoot rgT wT rgw (l1 ++ c :: l2)) none =
      _getGlobalBoundsRecursive
        (.mk lvr meas ba view effects rgRoot rgT wT rgw (l1 ++ l2)) none := by
    simp only [_getGlobalBoundsRecursive, hlist]
  rw [hv]

/-- C6: a visited node with an explicit bounds-area override contributes
the override, transformed by its full world transform, directly to the
caller's accumulator; its own view and children are never consulted.  With
no effects the visit is exactly that union (also for render-group roots,
whose untouched scratch accumulator merges as a no-op); with effects the
effects block runs on the caller's already-updated accumulator and an
empty scratch accumulator. -/
theorem c6_bounds_area_override (lvr : Nat) (meas : Bool) (area : Rect)
    (view : Option Rect) (effects : List Effect) (rgRoot : Bool) (rgT wT rgw : Matrix)
    (children : List Container) (b : Bounds) :
    (∀ (view' : Option Rect) (children' : List Container),
      _getGlobalBoundsRecursive
          (.mk lvr meas (some area) view' effects rgRoot rgT wT rgw children') b =
        _getGlobalBoundsRecursive
          (.mk lvr meas (some area) view effects rgRoot rgT wT rgw children) b) ∧
    (lvr = 3 → meas = true → effects = [] →
      _getGlobalBoundsRecursive
          (.mk lvr meas (some area) view effects rgRoot rgT wT rgw children) b =
        Bounds.addRect b area (some wT)) ∧
    (lvr = 3 → meas = true → effects ≠ [] →
      _getGlobalBoundsRecursive
          (.mk lvr meas (some area) view effects rgRoot rgT wT rgw children) b =
        effectsBlock effects rgw rgT (Bounds.addRect b area (some wT)) none) := by
  refine ⟨?_, ?_, ?_⟩
  · intro view' children'
    simp only [_getGlobalBoundsRecursive]
  · intro h1 h2 h3
    subst h1; subst h2; subst h3
    cases rgRoot <;>
      simp [_getGlobalBoundsRecursive, finishNode_nil, addBounds_none]
  · intro h1 h2 h3
    subst h1; subst h2
    have hm : (effects.length != 0) = true := by
      cases effects with
      | nil => exact absurd rfl h3
      | cons e es => simp
    simp only [_getGlobalBoundsRecursive, hm, Bool.or_true, if_true, finishNode]
    simp

/-- Witness for C5 at a concrete input: an invisible child between two
visible siblings contributes nothing and its removal leaves the public
result unchanged. -/
theorem c5_invisible_skip_witness :
    _getGlobalBoundsRecursive
        (.mk 1 true none (some ⟨0, 0, 50, 50⟩) [] false Matrix.identity Matrix.identity
          Matrix.identity []) (some ⟨0, 0, 1, 1⟩) = some ⟨0, 0, 1, 1⟩ ∧
    getFastGlobalBounds
        (.mk 3 true none none [] false Matrix.identity Matrix.identity
          (Matrix.translation 1 1)
          ([.mk 3 true none (some ⟨0, 0, 2, 2⟩) [] false Matrix.identity Matrix.identity
              Matrix.identity []] ++
            (.mk 1 true none (some ⟨0, 0, 50, 50⟩) [] false Matrix.identity Matrix.identity
              Matrix.identity []) ::
            [.mk 3 true none (some ⟨4, 4, 6, 6⟩) [] false Matrix.identity Matrix.identity
              Matrix.identity []])) none =
      getFastGlobalBounds
        (.mk 3 true none none [] false Matrix.identity Matrix.identity
          (Matrix.translation 1 1)
          ([.mk 3 true none (some ⟨0, 0, 2, 2⟩) [] false Matrix.identity Matrix.identity
              Matrix.identity []] ++
            [.mk 3 true none (some ⟨4, 4, 6, 6⟩) [] false Matrix.identity Matrix.identity
              Matrix.identity []])) none :=
  ⟨((c5_invisible_skip
      (.mk 1 true none (some ⟨0, 0, 50, 50⟩) [] false Matrix.identity Matrix.identity
        Matrix.identity []) (some ⟨0, 0, 1, 1⟩)) (Or.inl (by decide))).1,
    (((c5_invisible_skip
      (.mk 1 true none (some ⟨0, 0, 50, 50⟩) [] false Matrix.identity Matrix.identity
        Matrix.identity []) (some ⟨0, 0, 1, 1⟩)) (Or.inl (by decide))).2 3 true none none []
        false Matrix.identity Matrix.identity (Matrix.translation 1 1)
        [.mk 3 true none (some ⟨0, 0, 2, 2⟩) [] false Matrix.identity Matrix.identity
          Matrix.identity []]
        [.mk 3 true none (some ⟨4, 4, 6, 6⟩) [] false Matrix.identity Matrix.identity
          Matrix.identity []] none).2⟩

/-- Witness for C6 at concrete inputs: a render-group root with an
override and no effects (second conjunct), and a node with an override and
one capable effect (third conjunct). -/
theorem c6_bounds_area_override_witness :
    (_getGlobalBoundsRecursive
        (.mk 3 true (some ⟨1, 1, 2, 2⟩) (some ⟨0, 0, 9, 9⟩) [] true Matrix.identity
          (Matrix.translation 3 0) Matrix.identity []) (some ⟨0, 0, 1, 1⟩) =
      Bounds.addRect (some ⟨0, 0, 1, 1⟩) ⟨1, 1, 2, 2⟩ (some (Matrix.translation 3 0))) ∧
    (_getGlobalBoundsRecursive
        (.mk 3 true (some ⟨1, 1, 2, 2⟩) none
          [Effect.mk (some (fun bb => Bounds.addRect bb ⟨0, 0, 1, 1⟩ none))] false
          Matrix.identity (Matrix.translation 3 0) Matrix.identity []) (some ⟨0, 0, 1, 1⟩) =
      effectsBlock [Effect.mk (some (fun bb => Bounds.addRect bb ⟨0, 0, 1, 1⟩ none))]
        Matrix.identity Matrix.identity
        (Bounds.addRect (some ⟨0, 0, 1, 1⟩) ⟨1, 1, 2, 2⟩ (some (Matrix.translation 3 0)))
        none) :=
  ⟨(c6_bounds_area_override 3 true ⟨1, 1, 2, 2⟩ (some ⟨0, 0, 9, 9⟩) [] true Matrix.identity
      (Matrix.translation 3 0) Matrix.identity [] (some ⟨0, 0, 1, 1⟩)).2.1 rfl rfl rfl,
    (c6_bounds_area_override 3 true ⟨1, 1, 2, 2⟩ none
      [Effect.mk (some (fun bb => Bounds.addRect bb ⟨0, 0, 1, 1⟩ none))] false
      Matrix.identity (Matrix.translation 3 0) Matrix.identity []
      (some ⟨0, 0, 1, 1⟩)).2.2 rfl rfl (List.cons_ne_nil _ _)⟩

/-- C9: a render-group root whose (non-empty) effects all lack the
bounds-mutating capability goes through the effect-handling branch, not
the render-group-root branch: its subtree's scratch accumulator is merged
into the caller's accumulator only by the untransformed merge — the node's
local-to-render-group transform is never applied to the merged subtree
bounds. -/
theorem c9_rg_root_inert_effects (view : Option Rect) (effects : List Effect)
    (rgT wT rgw : Matrix) (children : List Container) (b : Bounds)
    (h1 : effects ≠ []) (h2 : ∀ e ∈ effects, e.addBounds = none) :
    _getGlobalBoundsRecursive (.mk 3 true none view effects true rgT wT rgw children) b =
      Bounds.addBounds b (addChildrenBounds children (addView view rgT none)) none := by
  have hm : (effects.length != 0) = true := by
    cases effects with
    | nil => exact absurd rfl h1
    | cons e es => simp
  simp only [_getGlobalBoundsRecursive, hm, Bool.true_or, if_true, finishNode, effectsBlock,
    runEffects_incapable effects rgw (addChildrenBounds children (addView view rgT none))
      false h2]
  simp

/-- The code's effects block coincides with the spec's description of the
effect-handling step. -/
theorem effectsBlock_eq_spec (effects : List Effect) (rgw rgT : Matrix)
    (bounds localBounds : Bounds) :
    effectsBlock effects rgw rgT bounds localBounds =
      effectsSpecBlock effects rgw rgT bounds localBounds := by
  cases hc : capableEffects effects with
  | nil =>
    simp only [effectsBlock, runEffects_false, hc, effectsSpecBlock]
    simp
  | cons f fs =>
    simp only [effectsBlock, runEffects_false, hc, effectsSpecBlock, List.foldl_cons]
    simp

/-- C2: effect handling, for every node with a non-empty effects list that
passes the visibility check: the scratch accumulator is converted to
render-group world space exactly once, lazily, before the first capable
effect; capable effects run in list order (incapable ones are skipped
without stopping the loop); if any conversion happened the accumulator is
converted back by the inverse of the render group's world transform and
merged under the node's local-to-render-group transform; and it is then
unconditionally merged a second time with no transform — as captured by
`effectsSpecBlock`, which the code's block equals on all inputs. -/
theorem c2_effects_handling :
    (∀ (effects : List Effect) (rgw rgT : Matrix) (bounds localBounds : Bounds),
      effectsBlock effects rgw rgT bounds localBounds =
        effectsSpecBlock effects rgw rgT bounds localBounds) ∧
    (∀ (view : Option Rect) (effects : List Effect) (rgRoot : Bool) (rgT wT rgw : Matrix)
        (children : List Container) (b : Bounds),
      effects ≠ [] →
      _getGlobalBoundsRecursive (.mk 3 true none view effects rgRoot rgT wT rgw children) b =
        effectsSpecBlock effects rgw rgT b
          (addChildrenBounds children (addView view rgT none))) ∧
    (∀ (area : Rect) (view : Option Rect) (effects : List Effect) (rgRoot : Bool)
        (rgT wT rgw : Matrix) (children : List Container) (b : Bounds),
      effects ≠ [] →
      _getGlobalBoundsRecursive
          (.mk 3 true (some area) view effects rgRoot rgT wT rgw children) b =
        effectsSpecBlock effects rgw rgT (Bounds.addRect b area (some wT)) none) := by
  refine ⟨effectsBlock_eq_spec, ?_, ?_⟩
  · intro view effects rgRoot rgT wT rgw children b h
    have hm : (effects.length != 0) = true := by
      cases effects with
      | nil => exact absurd rfl h
      | cons e es => simp
    simp only [_getGlobalBoundsRecursive, hm, Bool.or_true, if_true, finishNode,
      effectsBlock_eq_spec]
    simp
  · intro area view effects rgRoot rgT wT rgw children b h
    have hm : (effects.length != 0) = true := by
      cases effects with
      | nil => exact absurd rfl h
      | cons e es => simp
    simp only [_getGlobalBoundsRecursive, hm, Bool.or_true, if_true, finishNode,
      effectsBlock_eq_spec]
    simp

/-- Witness for C9 at a concrete input: a render-group root with one inert
effect and one child; the child's subtree bounds are merged untransformed
(the node's local-to-render-group translation by `(100,100)` is not
applied). -/
theorem c9_rg_root_inert_effects_witness :
    _getGlobalBoundsRecursive
        (.mk 3 true none none [Effect.mk none] true (Matrix.translation 100 100)
          Matrix.identity Matrix.identity
          [.mk 3 true none (some ⟨0, 0, 4, 4⟩) [] false Matrix.identity Matrix.identity
            Matrix.identity []]) none =
      Bounds.addBounds none
        (addChildrenBounds
          [.mk 3 true none (some ⟨0, 0, 4, 4⟩) [] false Matrix.identity Matrix.identity
            Matrix.identity []]
          (addView none (Matrix.translation 100 100) none)) none :=
  c9_rg_root_inert_effects none [Effect.mk none] (Matrix.translation 100 100)
    Matrix.identity Matrix.identity
    [.mk 3 true none (some ⟨0, 0, 4, 4⟩) [] false Matrix.identity Matrix.identity
      Matrix.identity []] none (List.cons_ne_nil _ _)
    (by
      intro e he
      rw [List.mem_singleton] at he
      subst he
      rfl)

/-- Witness for C2 at a concrete input: a node with one incapable and one
capable effect equals the spec-described block. -/
theorem c2_effects_handling_witness :
    _getGlobalBoundsRecursive
        (.mk 3 true none (some ⟨0, 0, 1, 1⟩)
          [Effect.mk none, Effect.mk (some (fun bb => Bounds.addRect bb ⟨0, 0, 2, 2⟩ none))]
          false Matrix.identity Matrix.identity (Matrix.translation 1 0) []) none =
      effectsSpecBlock
        [Effect.mk none, Effect.mk (some (fun bb => Bounds.addRect bb ⟨0, 0, 2, 2⟩ none))]
        (Matrix.translation 1 0) Matrix.identity none
        (addChildrenBounds [] (addView (some ⟨0, 0, 1, 1⟩) Matrix.identity none)) :=
  c2_effects_handling.2.1 (some ⟨0, 0, 1, 1⟩)
    [Effect.mk none, Effect.mk (some (fun bb => Bounds.addRect bb ⟨0, 0, 2, 2⟩ none))]
    false Matrix.identity Matrix.identity (Matrix.translation 1 0) [] none
    (List.cons_ne_nil _ _)

theorem collectRects_mk (lvr : Nat) (meas : Bool) (ba view : Option Rect)
    (effects : List Effect) (rgRoot : Bool) (rgT wT rgw : Matrix)
    (children : List Container) :
    collectRects (.mk lvr meas ba view effects rgRoot rgT wT rgw children) =
      (match view with
       | some v => [shiftRect rgT v]
       | none => []) ++ collectForest children := by
  rw [collectRects.eq_def]

theorem collectForest_nil : collectForest [] = [] := by
  rw [collectForest.eq_def]

theorem collectForest_cons (c : Container) (cs : List Container) :
    collectForest (c :: cs) = collectRects c ++ collectForest cs := by
  rw [collectForest.eq_def]

theorem isTranslation_parts (m : Matrix) (hm : m.isTranslation = true) :
    m.a = 1 ∧ m.b = 0 ∧ m.c = 0 ∧ m.d = 1 := by
  simpa [Matrix.isTranslation, Bool.and_eq_true, decide_eq_true_eq, and_assoc] using hm

theorem transformRect_translation (m : Matrix) (x0 y0 x1 y1 : ℚ)
    (hm : m.isTranslation = true) (hx : x0 ≤ x1) (hy : y0 ≤ y1) :
    transformRect m x0 y0 x1 y1 = ⟨x0 + m.tx, y0 + m.ty, x1 + m.tx, y1 + m.ty⟩ := by
  obtain ⟨ha, hb, hc, hd⟩ := isTranslation_parts m hm
  simp only [transformRect, Matrix.apply, ha, hb, hc, hd, one_mul, zero_mul, add_zero,
    zero_add, qmin_eq_min, qmax_eq_max, min_self, max_self, min_add_add_right,
    max_add_add_right, min_eq_left hx, max_eq_right hx, min_eq_left hy, max_eq_right hy]

theorem shiftRect_union (m : Matrix) (r s : Rect) :
    shiftRect m (r.union s) = (shiftRect m r).union (shiftRect m s) := by
  simp [shiftRect, Rect.union, qmin_eq_min, qmax_eq_max, min_add_add_right,
    max_add_add_right]

theorem shiftRect_wf (m : Matrix) (r : Rect) (h : r.wf = true) :
    (shiftRect m r).wf = true := by
  simp only [Rect.wf, shiftRect, Bool.and_eq_true, decide_eq_true_eq] at h ⊢
  exact ⟨add_le_add_right h.1 _, add_le_add_right h.2 _⟩

theorem union_wf (r s : Rect) (hr : r.wf = true) (_hs : s.wf = true) :
    (r.union s).wf = true := by
  simp only [Rect.wf, Rect.union, Bool.and_eq_true, decide_eq_true_eq, qmin_eq_min,
    qmax_eq_max] at hr ⊢
  exact ⟨le_trans (min_le_left _ _) (le_trans hr.1 (le_max_left _ _)),
    le_trans (min_le_left _ _) (le_trans hr.2 (le_max_left _ _))⟩

theorem wfB_unionStep (acc : Bounds) (r : Rect) (hacc : wfB acc = true)
    (hr : r.wf = true) : wfB (unionStep acc r) = true := by
  cases acc with
  | none => simpa [wfB, unionStep, Bounds.addRect, Bounds.addFrame, frameRect]
  | some s =>
    have : (s.union r).wf = true := union_wf s r (by simpa [wfB] using hacc) hr
    simpa [wfB, unionStep, Bounds.addRect, Bounds.addFrame, frameRect]

theorem unionList_append (acc : Bounds) (rs ss : List Rect) :
    unionList acc (rs ++ ss) = unionList (unionList acc rs) ss := by
  simp [unionList, List.foldl_append]

theorem addView_translation (v : Rect) (rgT : Matrix) (acc : Bounds)
    (hm : rgT.isTranslation = true) (hwf : v.wf = true) :
    addView (some v) rgT acc = unionStep acc (shiftRect rgT v) := by
  obtain ⟨hx, hy⟩ : v.minX ≤ v.maxX ∧ v.minY ≤ v.maxY := by
    simpa [Rect.wf, Bool.and_eq_true, decide_eq_true_eq] using hwf
  have ht := transformRect_translation rgT v.minX v.minY v.maxX v.maxY hm hx hy
  cases acc with
  | none =>
    simp [addView, Bounds.addFrame, frameRect, ht, unionStep, Bounds.addRect, shiftRect]
  | some s =>
    simp [addView, Bounds.addFrame, frameRect, ht, unionStep, Bounds.addRect, shiftRect]

mutual

theorem plain_visit (t : Container) (acc : Bounds) (h : plainTree t = true) :
    _getGlobalBoundsRecursive t acc = unionList acc (collectRects t) := by
  cases t with
  | mk lvr meas ba view effects rgRoot rgT wT rgw children =>
    rw [plainTree] at h
    simp only [Bool.and_eq_true] at h
    obtain ⟨hnode, hkids⟩ := h
    simp only [plainNode, Container.localVisibleRenderable, Container.measurable,
      Container.effects, Container.isRenderGroupRoot, Container.boundsArea,
      Container.rgTransform, Container.view, Bool.and_eq_true, beq_iff_eq,
      Bool.not_eq_true', Option.isNone_iff_eq_none] at hnode
    obtain ⟨⟨⟨⟨⟨⟨hlvr, hmeas⟩, heff⟩, hroot⟩, hba⟩, hrgt⟩, hview⟩ := hnode
    subst hlvr; subst hmeas; subst hroot; subst hba
    have heffnil : effects = [] := by
      cases effects with
      | nil => rfl
      | cons e es => simp [List.isEmpty] at heff
    subst heffnil
    rw [collectRects_mk]
    simp only [_getGlobalBoundsRecursive]
    rw [if_neg (by simp)]
    simp only [List.length_nil, if_neg Bool.false_ne_true]
    cases view with
    | none =>
      simp only [addView]
      rw [plain_forest children acc hkids]
      simp
    | some v =>
      rw [addView_translation v rgT acc hrgt hview]
      rw [plain_forest children (unionStep acc (shiftRect rgT v)) hkids]
      rw [unionList_append]
      rfl

theorem plain_forest (l : List Container) (acc : Bounds) (h : plainForest l = true) :
    addChildrenBounds l acc = unionList acc (collectForest l) := by
  cases l with
  | nil => rfl
  | cons c cs =>
    rw [plainForest] at h
    simp only [Bool.and_eq_true] at h
    obtain ⟨h1, h2⟩ := h
    rw [addChildrenBounds, collectForest_cons, plain_visit c acc h1,
      plain_forest cs (unionList acc (collectRects c)) h2, unionList_append]

end

mutual

theorem collect_wf (t : Container) (h : plainTree t = true) :
    ∀ r ∈ collectRects t, r.wf = true := by
  cases t with
  | mk lvr meas ba view effects rgRoot rgT wT rgw children =>
    rw [plainTree] at h
    simp only [Bool.and_eq_true] at h
    obtain ⟨hnode, hkids⟩ := h
    simp only [plainNode, Container.rgTransform, Container.view, Bool.and_eq_true] at hnode
    obtain ⟨⟨hrest, hrgt⟩, hview⟩ := hnode
    intro r hr
    rw [collectRects_mk] at hr
    rw [List.mem_append] at hr
    rcases hr with hr | hr
    · cases view with
      | none => simp at hr
      | some v =>
        rw [List.mem_singleton] at hr
        subst hr
        exact shiftRect_wf rgT v hview
    · exact collect_wf_forest children hkids r hr

theorem collect_wf_forest (l : List Container) (h : plainForest l = true) :
    ∀ r ∈ collectForest l, r.wf = true := by
  cases l with
  | nil => intro r hr; simp [collectForest_nil] at hr
  | cons c cs =>
    rw [plainForest] at h
    simp only [Bool.and_eq_true] at h
    obtain ⟨h1, h2⟩ := h
    intro r hr
    rw [collectForest_cons, List.mem_append] at hr
    rcases hr with hr | hr
    · exact collect_wf c h1 r hr
    · exact collect_wf_forest cs h2 r hr

end

theorem applyMatrix_unionStep (m : Matrix) (hm : m.isTranslation = true)
    (acc : Bounds) (r : Rect) (hacc : wfB acc = true) (hr : r.wf = true) :
    Bounds.applyMatrix (unionStep acc r) m =
      unionStep (Bounds.applyMatrix acc m) (shiftRect m r) := by
  obtain ⟨hx, hy⟩ : r.minX ≤ r.maxX ∧ r.minY ≤ r.maxY := by
    simpa [Rect.wf, Bool.and_eq_true, decide_eq_true_eq] using hr
  cases acc with
  | none =>
    have ht := transformRect_translation m r.minX r.minY r.maxX r.maxY hm hx hy
    simp [unionStep, Bounds.addRect, Bounds.addFrame, frameRect, Bounds.applyMatrix, ht,
      shiftRect]
  | some s =>
    have hswf : s.wf = true := by simpa [wfB] using hacc
    obtain ⟨hsx, hsy⟩ : s.minX ≤ s.maxX ∧ s.minY ≤ s.maxY := by
      simpa [Rect.wf, Bool.and_eq_true, decide_eq_true_eq] using hswf
    have huwf := union_wf s r hswf hr
    obtain ⟨hux, huy⟩ : (s.union r).minX ≤ (s.union r).maxX ∧
        (s.union r).minY ≤ (s.union r).maxY := by
      simpa [Rect.wf, Bool.and_eq_true, decide_eq_true_eq] using huwf
    have ht1 := transformRect_translation m (s.union r).minX (s.union r).minY
      (s.union r).maxX (s.union r).maxY hm hux huy
    have ht2 := transformRect_translation m s.minX s.minY s.maxX s.maxY hm hsx hsy
    have hsu : shiftRect m (s.union r) = (shiftRect m s).union (shiftRect m r) :=
      shiftRect_union m s r
    simp only [unionStep, Bounds.addRect, Bounds.addFrame, frameRect,
      Bounds.applyMatrix, ht1, ht2]
    simp only [shiftRect] at hsu ⊢
    rw [← hsu]

theorem applyMatrix_unionList (m : Matrix) (hm : m.isTranslation = true) :
    ∀ (rs : List Rect) (acc : Bounds), (∀ r ∈ rs, r.wf = true) → wfB acc = true →
      Bounds.applyMatrix (unionList acc rs) m =
        unionList (Bounds.applyMatrix acc m) (rs.map (shiftRect m)) := by
  intro rs
  induction rs with
  | nil => intro acc _ _; rfl
  | cons r rest ih =>
    intro acc hwf hacc
    have hr : r.wf = true := hwf r (List.mem_cons_self r rest)
    have hrest : ∀ s ∈ rest, s.wf = true := fun s hs => hwf s (List.mem_cons_of_mem r hs)
    show Bounds.applyMatrix (unionList (unionStep acc r) rest) m = _
    rw [ih (unionStep acc r) hrest (wfB_unionStep acc r hacc hr)]
    rw [applyMatrix_unionStep m hm acc r hacc hr]
    rfl

theorem contains_coerce (bz : Bounds) : boundsContains (coerceB bz) bz = true := by
  cases bz with
  | none => rfl
  | some r =>
    simp [coerceB, Bounds.isValid, boundsContains, Rect.containsR]

/-- C1: on a finite acyclic scene subtree whose nodes are all visible and
measurable, carry no effects, root no render groups, have no bounds-area
overrides, and whose transforms are axis-aligned translations (with
well-formed views), `getFastGlobalBounds` equals the (coerced) union of
the exactly-translated view bounds of the target and all its descendants —
and in particular the result contains that true combined bounds, never
being smaller. -/
theorem c1_exact_on_translations (t : Container) (b : Bounds)
    (h1 : plainTree t = true)
    (h2 : Matrix.isTranslation t.renderGroupWorldTransform = true) :
    getFastGlobalBounds t b = coerceB (specTrueBounds t) ∧
    boundsContains (getFastGlobalBounds t b) (specTrueBounds t) = true := by
  have hroot : t.isRenderGroupRoot = false := by
    cases t with
    | mk lvr meas ba view effects rgRoot rgT wT rgw children =>
      rw [plainTree] at h1
      simp only [Bool.and_eq_true] at h1
      have := h1.1
      simp only [plainNode, Container.isRenderGroupRoot, Bool.and_eq_true,
        Bool.not_eq_true'] at this ⊢
      exact this.1.1.1.2
  have hvisit := plain_visit t none h1
  have hwf := collect_wf t h1
  have happ := applyMatrix_unionList t.renderGroupWorldTransform h2 (collectRects t)
    none hwf rfl
  have hmain : getFastGlobalBounds t b = coerceB (specTrueBounds t) := by
    simp only [getFastGlobalBounds, Bounds.clear, hroot, Bool.not_false, if_true, hvisit,
      happ, coerceB, specTrueBounds]
    rfl
  exact ⟨hmain, by rw [hmain]; exact contains_coerce (specTrueBounds t)⟩

/-- Witness for C1 at a concrete input: a two-node translated tree. -/
theorem c1_exact_on_translations_witness :
    plainTree
        (.mk 3 true none (some ⟨0, 0, 1, 1⟩) [] false (Matrix.translation 2 3)
          Matrix.identity (Matrix.translation 10 0)
          [.mk 3 true none (some ⟨1, 1, 4, 5⟩) [] false Matrix.identity Matrix.identity
            Matrix.identity []]) = true ∧
    (getFastGlobalBounds
        (.mk 3 true none (some ⟨0, 0, 1, 1⟩) [] false (Matrix.translation 2 3)
          Matrix.identity (Matrix.translation 10 0)
          [.mk 3 true none (some ⟨1, 1, 4, 5⟩) [] false Matrix.identity Matrix.identity
            Matrix.identity []]) none =
      coerceB (specTrueBounds
        (.mk 3 true none (some ⟨0, 0, 1, 1⟩) [] false (Matrix.translation 2 3)
          Matrix.identity (Matrix.translation 10 0)
          [.mk 3 true none (some ⟨1, 1, 4, 5⟩) [] false Matrix.identity Matrix.identity
            Matrix.identity []])) ∧
    boundsContains
        (getFastGlobalBounds
          (.mk 3 true none (some ⟨0, 0, 1, 1⟩) [] false (Matrix.translation 2 3)
            Matrix.identity (Matrix.translation 10 0)
            [.mk 3 true none (some ⟨1, 1, 4, 5⟩) [] false Matrix.identity Matrix.identity
              Matrix.identity []]) none)
        (specTrueBounds
          (.mk 3 true none (some ⟨0, 0, 1, 1⟩) [] false (Matrix.translation 2 3)
            Matrix.identity (Matrix.translation 10 0)
            [.mk 3 true none (some ⟨1, 1, 4, 5⟩) [] false Matrix.identity Matrix.identity
              Matrix.identity []])) = true) :=
  ⟨by decide,
    c1_exact_on_translations
      (.mk 3 true none (some ⟨0, 0, 1, 1⟩) [] false (Matrix.translation 2 3)
        Matrix.identity (Matrix.translation 10 0)
        [.mk 3 true none (some ⟨1, 1, 4, 5⟩) [] false Matrix.identity Matrix.identity
          Matrix.identity []]) none (by decide) (by decide)⟩

theorem readM_writeM_ne (st : HeapSt) (i j : Nat) (m : Matrix) (h : j ≠ i) :
    readM (writeM st i m) j = readM st j := by
  simp only [readM, writeM, List.getD_eq_getElem?_getD, List.getElem?_set_ne (Ne.symm h)]

theorem readM_getBounds (st : HeapSt) (j : Nat) :
    readM (getBounds st).2.2 j = readM st j := rfl

theorem readM_returnBounds (st : HeapSt) (i j : Nat) :
    readM (returnBounds st i) j = readM st j := rfl

theorem effectsBlockI_mats (effects : List Effect) (rgwIx rgTIx tmpIx : Nat)
    (bounds localBounds : Bounds) (st : HeapSt) (j : Nat) (h : j ≠ tmpIx) :
    readM (effectsBlockI effects rgwIx rgTIx tmpIx bounds localBounds st).2 j =
      readM st j := by
  simp only [effectsBlockI]
  cases (runEffects effects (readM st rgwIx) localBounds false).2 with
  | false => rfl
  | true => simp only [if_true, readM_writeM_ne _ _ _ _ h]

theorem finishI_mats (effects : List Effect) (rgRoot : Bool) (rgTIx rgwIx tmpIx : Nat)
    (bounds localBounds : Bounds) (bid : Nat) (st : HeapSt) (j : Nat) (h : j ≠ tmpIx) :
    readM (finishI effects rgRoot rgTIx rgwIx tmpIx bounds localBounds bid st).2 j =
      readM st j := by
  simp only [finishI]
  by_cases hc : (effects.length != 0) = true
  · rw [if_pos hc]
    simp only [readM_returnBounds,
      effectsBlockI_mats effects rgwIx rgTIx tmpIx bounds localBounds st j h]
  · rw [if_neg hc]
    cases rgRoot <;> simp [readM_returnBounds]

mutual

theorem visitI_mats (t : ContainerI) (b : Bounds) (tmpIx : Nat) (st : HeapSt)
    (j : Nat) (h : j ≠ tmpIx) :
    readM (visitI t b tmpIx st).2 j = readM st j := by
  cases t with
  | mk lvr meas ba view effects rgRoot rgTIx wTIx rgwIx children =>
    simp only [visitI]
    by_cases hskip : (lvr != 3 || !meas) = true
    · rw [if_pos hskip]
    · rw [if_neg hskip]
      by_cases hn : (rgRoot || effects.length != 0) = true
      · rw [if_pos hn]
        cases ba with
        | some area =>
          rw [finishI_mats effects rgRoot rgTIx rgwIx tmpIx _ _ _ _ j h,
            readM_getBounds]
        | none =>
          rw [finishI_mats effects rgRoot rgTIx rgwIx tmpIx _ _ _ _ j h,
            visitListI_mats children _ tmpIx _ j h, readM_getBounds]
      · rw [if_neg hn]
        cases ba with
        | some area => rfl
        | none => rw [visitListI_mats children _ tmpIx _ j h]

theorem visitListI_mats (l : List ContainerI) (b : Bounds) (tmpIx : Nat) (st : HeapSt)
    (j : Nat) (h : j ≠ tmpIx) :
    readM (visitListI l b tmpIx st).2 j = readM st j := by
  cases l with
  | nil => rfl
  | cons c cs =>
    simp only [visitListI]
    rw [visitListI_mats cs _ tmpIx _ j h, visitI_mats c b tmpIx st j h]

end

/-- C10: the bounds computation never mutates the scene graph's
transforms: every matrix object other than the module-private `tempMatrix`
(slot `tmpIx`) holds the same value after `getFastGlobalBounds` as before
— in particular `target.renderGroup.worldTransform` is preserved, because
the inversion in the effect-handling step is performed on the temporary
copy only. -/
theorem c10_transforms_not_mutated (t : ContainerI) (b : Bounds) (tmpIx : Nat)
    (st : HeapSt) (j : Nat) (h : j ≠ tmpIx) :
    readM (getFastGlobalBoundsI t b tmpIx st).2 j = readM st j := by
  simp only [getFastGlobalBoundsI]
  exact visitI_mats t (Bounds.clear b) tmpIx st j h

/-- Witness for C10 at a concrete input: a node with a capable effect (so
the copy-and-invert path runs against the store) leaves the non-temporary
slot `1`, holding the render group's world transform, unchanged. -/
theorem c10_transforms_not_mutated_witness :
    readM
        (getFastGlobalBoundsI
          (.mk 3 true none (some ⟨0, 0, 1, 1⟩)
            [Effect.mk (some (fun bb => Bounds.addRect bb ⟨0, 0, 2, 2⟩ none))]
            false 1 1 1
            []) none 0
          ⟨[Matrix.identity, Matrix.translation 5 5], 0, []⟩).2 1 =
      readM ⟨[Matrix.identity, Matrix.translation 5 5], 0, []⟩ 1 :=
  c10_transforms_not_mutated
    (.mk 3 true none (some ⟨0, 0, 1, 1⟩)
      [Effect.mk (some (fun bb => Bounds.addRect bb ⟨0, 0, 2, 2⟩ none))] false 1 1 1 [])
    none 0 ⟨[Matrix.identity, Matrix.translation 5 5], 0, []⟩ 1 (by decide)

theorem effectsBlockI_st (effects : List Effect) (rgwIx rgTIx tmpIx : Nat)
    (bounds localBounds : Bounds) (st : HeapSt) :
    (effectsBlockI effects rgwIx rgTIx tmpIx bounds localBounds st).2.trace = st.trace ∧
    (effectsBlockI effects rgwIx rgTIx tmpIx bounds localBounds st).2.nextId = st.nextId := by
  simp only [effectsBlockI]
  cases (runEffects effects (readM st rgwIx) localBounds false).2 with
  | false => exact ⟨rfl, rfl⟩
  | true => exact ⟨rfl, rfl⟩

theorem finishI_st (effects : List Effect) (rgRoot : Bool) (rgTIx rgwIx tmpIx : Nat)
    (bounds localBounds : Bounds) (bid : Nat) (st : HeapSt)
    (hcond : (rgRoot || effects.length != 0) = true) :
    (finishI effects rgRoot rgTIx rgwIx tmpIx bounds localBounds bid st).2.trace =
      st.trace ++ [Ev.ret bid] ∧
    (finishI effects rgRoot rgTIx rgwIx tmpIx bounds localBounds bid st).2.nextId =
      st.nextId := by
  simp only [finishI]
  by_cases hc : (effects.length != 0) = true
  · rw [if_pos hc]
    obtain ⟨h1, h2⟩ := effectsBlockI_st effects rgwIx rgTIx tmpIx bounds localBounds st
    exact ⟨by simp [returnBounds, h1], by simp [returnBounds, h2]⟩
  · rw [if_neg hc]
    have hr : rgRoot = true := by
      revert hcond
      cases rgRoot with
      | true => intro _; rfl
      | false =>
        cases hcb : (effects.length != 0) with
        | true => exact absurd hcb hc
        | false => intro hcontra; simp at hcontra
    subst hr
    simp [returnBounds]

theorem nested_head (c : ContainerI) (st : HeapSt) (inner : List Ev)
    (hn : Nested inner) :
    Nested (if borrowsAt c then Ev.borrow st.nextId :: (inner ++ [Ev.ret st.nextId])
      else inner) := by
  cases hbc : borrowsAt c with
  | true => simpa using Nested.wrap st.nextId hn
  | false => simpa using hn

mutual

theorem visitI_trace (t : ContainerI) (b : Bounds) (tmpIx : Nat) (st : HeapSt) :
    ∃ inner : List Ev,
      Nested inner ∧
      (∀ e ∈ inner,
        (if borrowsAt t then st.nextId + 1 else st.nextId) ≤ evId e ∧
          evId e < (visitI t b tmpIx st).2.nextId) ∧
      st.nextId + (if borrowsAt t then 1 else 0) ≤ (visitI t b tmpIx st).2.nextId ∧
      (visitI t b tmpIx st).2.trace =
        st.trace ++
          (if borrowsAt t then Ev.borrow st.nextId :: (inner ++ [Ev.ret st.nextId])
           else inner) := by
  cases t with
  | mk lvr meas ba view effects rgRoot rgTIx wTIx rgwIx children =>
    simp only [visitI]
    by_cases hskip : (lvr != 3 || !meas) = true
    · have hb : borrowsAt (.mk lvr meas ba view effects rgRoot rgTIx wTIx rgwIx children) =
          false := by simp [borrowsAt, hskip]
      rw [if_pos hskip]
      exact ⟨[], Nested.nil, by simp, by simp [hb], by simp [hb]⟩
    · have hc0 : (lvr != 3 || !meas) = false := by
        revert hskip
        cases (lvr != 3 || !meas) <;> simp
      have hb : borrowsAt (.mk lvr meas ba view effects rgRoot rgTIx wTIx rgwIx children) =
          (rgRoot || effects.length != 0) := by simp [borrowsAt, hc0]
      rw [if_neg hskip]
      by_cases hn : (rgRoot || effects.length != 0) = true
      · rw [if_pos hn]
        have hb' : borrowsAt
            (.mk lvr meas ba view effects rgRoot rgTIx wTIx rgwIx children) = true := by
          rw [hb, hn]
        cases ba with
        | some area =>
          obtain ⟨htr, hni⟩ := finishI_st effects rgRoot rgTIx rgwIx tmpIx
            (Bounds.addRect b area (some (readM (getBounds st).2.2 wTIx)))
            (getBounds st).1 (getBounds st).2.1 (getBounds st).2.2 hn
          refine ⟨[], Nested.nil, by simp, ?_, ?_⟩
          · rw [hb', hni]
            show st.nextId + 1 ≤ st.nextId + 1
            exact le_refl _
          · rw [hb', htr]
            show (st.trace ++ [Ev.borrow st.nextId]) ++ [Ev.ret st.nextId] =
              st.trace ++ (Ev.borrow st.nextId :: ([] ++ [Ev.ret st.nextId]))
            simp
        | none =>
          obtain ⟨inner, hnest, hids, hnext, htrace⟩ := visitListI_trace children
            (addViewI view rgTIx (getBounds st).1 (getBounds st).2.2) tmpIx
            (getBounds st).2.2
          obtain ⟨htr, hni⟩ := finishI_st effects rgRoot rgTIx rgwIx tmpIx b
            (visitListI children (addViewI view rgTIx (getBounds st).1 (getBounds st).2.2)
              tmpIx (getBounds st).2.2).1
            (getBounds st).2.1
            (visitListI children (addViewI view rgTIx (getBounds st).1 (getBounds st).2.2)
              tmpIx (getBounds st).2.2).2 hn
          refine ⟨inner, hnest, ?_, ?_, ?_⟩
          · intro e he
            obtain ⟨hlo, hhi⟩ := hids e he
            rw [hb', hni]
            exact ⟨hlo, hhi⟩
          · rw [hb', hni]
            exact hnext
          · rw [hb', htr, htrace]
            show ((st.trace ++ [Ev.borrow st.nextId]) ++ inner) ++ [Ev.ret st.nextId] =
              st.trace ++ (Ev.borrow st.nextId :: (inner ++ [Ev.ret st.nextId]))
            simp
      · rw [if_neg hn]
        have hnf : (rgRoot || effects.length != 0) = false := by
          revert hn
          cases (rgRoot || effects.length != 0) <;> simp
        have hb' : borrowsAt
            (.mk lvr meas ba view effects rgRoot rgTIx wTIx rgwIx children) = false := by
          rw [hb, hnf]
        cases ba with
        | some area => exact ⟨[], Nested.nil, by simp, by simp [hb'], by simp [hb']⟩
        | none =>
          obtain ⟨inner, hnest, hids, hnext, htrace⟩ :=
            visitListI_trace children (addViewI view rgTIx b st) tmpIx st
          refine ⟨inner, hnest, ?_, ?_, ?_⟩
          · rw [hb']
            exact hids
          · rw [hb']
            simpa using hnext
          · rw [hb']
            exact htrace

theorem visitListI_trace (l : List ContainerI) (b : Bounds) (tmpIx : Nat) (st : HeapSt) :
    ∃ inner : List Ev,
      Nested inner ∧
      (∀ e ∈ inner, st.nextId ≤ evId e ∧ evId e < (visitListI l b tmpIx st).2.nextId) ∧
      st.nextId ≤ (visitListI l b tmpIx st).2.nextId ∧
      (visitListI l b tmpIx st).2.trace = st.trace ++ inner := by
  cases l with
  | nil => exact ⟨[], Nested.nil, by simp, le_refl _, by simp [visitListI]⟩
  | cons c cs =>
    simp only [visitListI]
    obtain ⟨inner1, hnest1, hids1, hnext1, htrace1⟩ := visitI_trace c b tmpIx st
    obtain ⟨inner2, hnest2, hids2, hnext2, htrace2⟩ :=
      visitListI_trace cs (visitI c b tmpIx st).1 tmpIx (visitI c b tmpIx st).2
    have hstep : st.nextId ≤ (visitI c b tmpIx st).2.nextId := by
      refine le_trans ?_ hnext1
      exact Nat.le_add_right _ _
    refine ⟨(if borrowsAt c then Ev.borrow st.nextId :: (inner1 ++ [Ev.ret st.nextId])
        else inner1) ++ inner2,
      Nested.app (nested_head c st inner1 hnest1) hnest2, ?_, ?_, ?_⟩
    · intro e he
      rw [List.mem_append] at he
      rcases he with he | he
      · have hememb : st.nextId ≤ evId e ∧ evId e < (visitI c b tmpIx st).2.nextId := by
          cases hbc : borrowsAt c with
          | true =>
            rw [hbc] at he
            have hnx : st.nextId + 1 ≤ (visitI c b tmpIx st).2.nextId := by
              simpa [hbc] using hnext1
            simp only [List.mem_cons, List.mem_append, List.mem_singleton, if_true] at he
            have he2 : e = Ev.borrow st.nextId ∨ e ∈ inner1 ∨ e = Ev.ret st.nextId := by
              simpa using he
            rcases he2 with he2 | he2 | he2
            · subst he2
              exact ⟨le_refl _, by simp only [evId]; omega⟩
            · obtain ⟨hlo, hhi⟩ := hids1 e he2
              have hlo2 : st.nextId + 1 ≤ evId e := by simpa [hbc] using hlo
              exact ⟨by omega, hhi⟩
            · subst he2
              exact ⟨le_refl _, by simp only [evId]; omega⟩
          | false =>
            rw [hbc] at he
            have he2 : e ∈ inner1 := by simpa using he
            obtain ⟨hlo, hhi⟩ := hids1 e he2
            have hlo2 : st.nextId ≤ evId e := by simpa [hbc] using hlo
            exact ⟨hlo2, hhi⟩
        exact ⟨hememb.1, lt_of_lt_of_le hememb.2 hnext2⟩
      · obtain ⟨hlo, hhi⟩ := hids2 e he
        exact ⟨le_trans hstep hlo, hhi⟩
    · exact le_trans hstep hnext2
    · rw [htrace2, htrace1]
      simp

end

/-- C8: pool discipline of the recursive walk.  A visit borrows a scratch
accumulator exactly when it passes the visibility early-exit and the node
roots a render group or has effects (`borrowsAt`); in that case the
visit's whole event trace is the borrow of a fresh id, a well-nested inner
trace whose ids are all strictly larger (so the borrowed instance is
returned exactly once), and the matching return as the very last event
before the visit ends — last-borrowed-first-returned stack discipline
across the whole recursion.  Otherwise the visit emits a well-nested inner
trace and no borrow of its own. -/
theorem c8_pool_discipline (t : ContainerI) (b : Bounds) (tmpIx : Nat) (st : HeapSt) :
    ∃ inner : List Ev,
      Nested inner ∧
      (∀ e ∈ inner, (if borrowsAt t then st.nextId + 1 else st.nextId) ≤ evId e) ∧
      (visitI t b tmpIx st).2.trace =
        st.trace ++
          (if borrowsAt t then Ev.borrow st.nextId :: (inner ++ [Ev.ret st.nextId])
           else inner) := by
  obtain ⟨inner, h1, h2, h3, h4⟩ := visitI_trace t b tmpIx st
  exact ⟨inner, h1, fun e he => (h2 e he).1, h4⟩

end Pixi
